import Mathlib

/-!
Verification of the core of a URL-shortening service (`src/app.py`):
a base-62 encoder over an incrementing counter, and an in-memory
code-to-URL registry with a redirect (resolve) path.
-/

namespace UrlShortener

/-- The fixed 62-symbol alphabet (`_base62_alphabet` in the source). -/
def _base62_alphabet : String :=
  "0123456789abcdefghijklmnopqrstuvwxyzABCDEFGHIJKLMNOPQRSTUVWXYZ"

/-- The alphabet as a list of characters (Python strings index to characters). -/
def alphabetChars : List Char := _base62_alphabet.data

/-- `_base62_alphabet[i]`: character of the alphabet at index `i`. -/
def alphaChar (i : Nat) : Char := alphabetChars.getD i '0'

/-- The `while num > 0` loop of `_encode_base62`: repeatedly divide by 62,
appending the alphabet character of each remainder (least-significant first)
to the accumulator `chars`. -/
def encodeLoop (num : Nat) (chars : List Char) : List Char :=
  if h : num = 0 then chars
  else encodeLoop (num / 62) (chars ++ [alphaChar (num % 62)])
termination_by num
decreasing_by exact Nat.div_lt_self (Nat.pos_of_ne_zero h) (by decide)

/-- `_encode_base62` from the source: 0 maps to the alphabet's first
character; otherwise collect remainders least-significant first and
reverse. -/
def _encode_base62 (num : Nat) : String :=
  if num = 0 then String.mk [alphaChar 0]
  else String.mk (encodeLoop num []).reverse

/-- Initial value of the process-wide counter `_counter`. -/
def _counter : Nat := 0

/-- `generate_short_code`: increments the counter and returns the new
counter value together with the base-62 encoding of the post-increment
value. -/
def generate_short_code (counter : Nat) : Nat × String :=
  (counter + 1, _encode_base62 (counter + 1))

/-- The codes returned by `n` successive calls to `generate_short_code`
starting from counter value `c`. -/
def callsFrom (c : Nat) : Nat → List String
  | 0 => []
  | n + 1 =>
    let r := generate_short_code c
    r.2 :: callsFrom r.1 n

/-- The counter value after `n` calls to `generate_short_code`, starting
from the initial counter. -/
def counterAfter : Nat → Nat
  | 0 => _counter
  | n + 1 => (generate_short_code (counterAfter n)).1

/-- The in-memory `url_store` dictionary, modelled by its observable
map semantics: a function from short codes to an optional URL. -/
def Store := String → Option String

/-- The initial, empty `url_store` (`url_store = {}`). -/
def emptyStore : Store := fun _ => none

/-- `url_store[code] = long_url`: dictionary assignment (inserts or
replaces the entry for `code`). -/
def put (store : Store) (code url : String) : Store :=
  fun k => if k = code then some url else store k

/-- `url_store.get(code)`: returns the stored URL, or `none` when the
code is absent. -/
def get (store : Store) (code : String) : Option String :=
  store code

/-- Python truthiness of an optional string (`not long_url` is true
exactly when the value is `None` or the empty string). -/
def pyFalsy : Option String → Bool
  | none => true
  | some s => s == ""

/-- Outcome of the `redirect_code` handler: a 302 redirect to the stored
URL, or `abort(404)`. -/
inductive RedirectResult where
  | redirect (url : String)
  | notFound
deriving DecidableEq

/-- The `redirect_code` handler: look the code up in `url_store`; if the
result is falsy (`if not long_url`) abort with 404, else redirect to it. -/
def redirect_code (store : Store) (code : String) : RedirectResult :=
  let long_url := get store code
  if pyFalsy long_url then RedirectResult.notFound
  else RedirectResult.redirect (long_url.getD "")

/-- The mutable process state: the counter and the URL store. -/
structure AppState where
  counter : Nat
  url_store : Store

/-- The state at process start: counter 0, empty store. -/
def initialState : AppState := ⟨_counter, emptyStore⟩

/-- Outcome of the `shorten` handler: a 400 "Missing url" error, or a 201
response carrying the new code and the submitted long URL. -/
inductive ShortenResult where
  | missingUrl
  | created (code : String) (long_url : String)
deriving DecidableEq

/-- The core of the `shorten` handler, after request parsing has produced
the optional `long_url`: reject a falsy URL, otherwise generate a code and
record `code -> long_url` in the store. -/
def shorten (st : AppState) (long_url : Option String) : AppState × ShortenResult :=
  if pyFalsy long_url then (st, ShortenResult.missingUrl)
  else
    let u := long_url.getD ""
    let r := generate_short_code st.counter
    (⟨r.1, put st.url_store r.2 u⟩, ShortenResult.created r.2 u)

/-- Modelled from the spec: the index of a character in the 62-symbol
alphabet (digits map to 0-9, lowercase letters to 10-35, uppercase to
36-61). The source has no decoder; the spec's round-trip property
("decoding the base-62 encoding of n ... must reproduce") defines one. -/
def charIndex (c : Char) : Nat :=
  if '0' ≤ c ∧ c ≤ '9' then c.toNat - '0'.toNat
  else if 'a' ≤ c ∧ c ≤ 'z' then c.toNat - 'a'.toNat + 10
  else if 'A' ≤ c ∧ c ≤ 'Z' then c.toNat - 'A'.toNat + 36
  else 0

/-- Modelled from the spec: decode a base-62 string (most-significant
digit first, over the fixed alphabet) to the non-negative integer it
represents. -/
def decode_base62 (s : String) : Nat :=
  s.data.foldl (fun acc c => acc * 62 + charIndex c) 0

/-- The spec's description of the encoding, stated independently of the
source loop: the base-62 digits of `n` (least-significant first, as
`Nat.digits` produces them), mapped through the alphabet and reversed to
most-significant first; 0 is the alphabet's first symbol. -/
def spec_encode (n : Nat) : String :=
  if n = 0 then String.mk [alphaChar 0]
  else String.mk (((Nat.digits 62 n).map alphaChar).reverse)

/-- A well-formed base-62 short code per the spec: non-empty, drawn from
the alphabet, no leading zero except for the single string "0". -/
def WellFormedCode (s : String) : Prop :=
  s.data ≠ [] ∧ (∀ c ∈ s.data, c ∈ alphabetChars) ∧ (s.data.head? = some '0' → s = "0")

instance (s : String) : Decidable (WellFormedCode s) := by
  unfold WellFormedCode; infer_instance

end UrlShortener

namespace UrlShortener

theorem charIndex_alphaChar : ∀ d : Fin 62, charIndex (alphaChar d.val) = d.val := by decide

theorem alphaChar_mem : ∀ d : Fin 62, alphaChar d.val ∈ alphabetChars := by decide

theorem alphaChar_charIndex : ∀ c ∈ alphabetChars, alphaChar (charIndex c) = c := by decide

theorem charIndex_lt : ∀ c ∈ alphabetChars, charIndex c < 62 := by decide

theorem encodeLoop_eq (n : Nat) : ∀ acc, encodeLoop n acc = acc ++ ((Nat.digits 62 n).map alphaChar) := by
  induction n using Nat.strong_induction_on with
  | _ n ih =>
    intro acc
    rw [encodeLoop]
    by_cases h : n = 0
    · simp [h]
    · rw [dif_neg h, ih (n / 62) (Nat.div_lt_self (Nat.pos_of_ne_zero h) (by decide)),
        Nat.digits_def' (by norm_num : (1:ℕ) < 62) (Nat.pos_of_ne_zero h)]
      simp

theorem encode_eq_spec (n : Nat) : _encode_base62 n = spec_encode n := by
  unfold _encode_base62 spec_encode
  by_cases h : n = 0
  · simp [h]
  · simp [h, encodeLoop_eq]

end UrlShortener

namespace UrlShortener

theorem foldl_decode_eq (l : List Char) : ∀ a : Nat,
    l.foldl (fun acc c => acc * 62 + charIndex c) a
      = Nat.ofDigits 62 ((l.map charIndex).reverse) + a * 62 ^ l.length := by
  induction l with
  | nil => intro a; simp [Nat.ofDigits]
  | cons c t ih =>
    intro a
    simp only [List.foldl_cons, List.map_cons, List.reverse_cons, List.length_cons]
    rw [ih, Nat.ofDigits_append]
    simp [Nat.ofDigits_cons, Nat.ofDigits_nil, pow_succ]
    ring

theorem decode_encode (n : Nat) : decode_base62 (_encode_base62 n) = n := by
  by_cases h : n = 0
  · subst h; decide
  · unfold decode_base62 _encode_base62
    rw [if_neg h]
    show (String.mk (encodeLoop n []).reverse).data.foldl _ 0 = n
    rw [encodeLoop_eq]
    simp only [List.nil_append]
    rw [foldl_decode_eq]
    rw [List.map_reverse, List.reverse_reverse, List.map_map]
    have hmap : (Nat.digits 62 n).map (charIndex ∘ alphaChar) = Nat.digits 62 n := by
      rw [List.map_congr_left, List.map_id]
      intro d hd
      exact charIndex_alphaChar ⟨d, Nat.digits_lt_base (by norm_num) hd⟩
    rw [hmap, Nat.ofDigits_digits]
    simp

end UrlShortener

namespace UrlShortener

theorem encode_injective : Function.Injective _encode_base62 := by
  intro m n h
  have h2 := congrArg decode_base62 h
  rwa [decode_encode, decode_encode] at h2

theorem encode_wf (n : Nat) : WellFormedCode (_encode_base62 n) := by
  by_cases h : n = 0
  · subst h; decide
  · have hd : Nat.digits 62 n ≠ [] := Nat.digits_ne_nil_iff_ne_zero.mpr h
    have hdata : (_encode_base62 n).data = ((Nat.digits 62 n).map alphaChar).reverse := by
      unfold _encode_base62
      rw [if_neg h, encodeLoop_eq]
      simp
    refine ⟨?_, ?_, ?_⟩
    · rw [hdata]; simpa using hd
    · intro c hc
      rw [hdata, List.mem_reverse, List.mem_map] at hc
      obtain ⟨d, hdmem, rfl⟩ := hc
      exact alphaChar_mem ⟨d, Nat.digits_lt_base (by norm_num) hdmem⟩
    · intro hhead
      exfalso
      rw [hdata, List.head?_reverse, List.getLast?_map] at hhead
      rw [List.getLast?_eq_getLast _ hd] at hhead
      simp only [Option.map_some', Option.some.injEq] at hhead
      have hlast := Nat.getLast_digit_ne_zero 62 h
      have hmemlast := List.getLast_mem hd
      have hlt : (Nat.digits 62 n).getLast hd < 62 := Nat.digits_lt_base (by norm_num) hmemlast
      have := congrArg charIndex hhead
      rw [charIndex_alphaChar ⟨_, hlt⟩] at this
      exact hlast (by simpa using this)

end UrlShortener

namespace UrlShortener

theorem encode_decode (s : String) (hs : WellFormedCode s) :
    _encode_base62 (decode_base62 s) = s := by
  obtain ⟨hne, hmem, hzero⟩ := hs
  by_cases h0 : s.data.head? = some '0'
  · rw [hzero h0]; decide
  · have hDlt : ∀ d ∈ (s.data.map charIndex).reverse, d < 62 := by
      intro d hdm
      rw [List.mem_reverse, List.mem_map] at hdm
      obtain ⟨c, hc, rfl⟩ := hdm
      exact charIndex_lt c (hmem c hc)
    have hDne : (s.data.map charIndex).reverse ≠ [] := by simpa using hne
    have hlast : ∀ hh : (s.data.map charIndex).reverse ≠ [],
        ((s.data.map charIndex).reverse).getLast hh ≠ 0 := by
      intro hh hz
      rw [List.getLast_reverse] at hz
      have hne' : s.data.map charIndex ≠ [] := by simpa using hne
      have hhd : (s.data.map charIndex).head hne' = charIndex (s.data.head hne) := by
        rw [List.head_map]
      rw [hhd] at hz
      have hc0 : s.data.head hne ∈ alphabetChars := hmem _ (List.head_mem hne)
      have := alphaChar_charIndex _ hc0
      rw [hz] at this
      have : s.data.head hne = '0' := by simpa [alphaChar] using this.symm
      exact h0 (by rw [List.head?_eq_head hne, this])
    have hdec : decode_base62 s = Nat.ofDigits 62 ((s.data.map charIndex).reverse) := by
      unfold decode_base62
      rw [foldl_decode_eq]; simp
    have hdig : Nat.digits 62 (Nat.ofDigits 62 ((s.data.map charIndex).reverse))
        = (s.data.map charIndex).reverse :=
      Nat.digits_ofDigits 62 (by norm_num) _ hDlt hlast
    have hnz : Nat.ofDigits 62 ((s.data.map charIndex).reverse) ≠ 0 := by
      intro hz
      rw [hz] at hdig
      exact hDne (by simpa using hdig.symm)
    rw [hdec]
    unfold _encode_base62
    rw [if_neg hnz, encodeLoop_eq, hdig]
    simp only [List.nil_append, List.map_reverse, List.reverse_reverse, List.map_map]
    have hmap : s.data.map (alphaChar ∘ charIndex) = s.data := by
      rw [List.map_congr_left, List.map_id]
      intro c hc
      exact alphaChar_charIndex c (hmem c hc)
    rw [hmap]

end UrlShortener

namespace UrlShortener

theorem callsFrom_map : ∀ (n c : Nat),
    callsFrom c n = (List.range n).map (fun i => _encode_base62 (c + 1 + i)) := by
  intro n
  induction n with
  | zero => intro c; simp [callsFrom]
  | succ n ih =>
    intro c
    rw [callsFrom, List.range_succ_eq_map]
    simp only [List.map_cons, List.map_map]
    show _encode_base62 (c + 1) :: callsFrom (c + 1) n = _ :: _
    rw [ih (c + 1)]
    congr 1
    refine List.map_congr_left fun a ha => ?_
    simp only [Function.comp_apply]
    congr 1
    omega

theorem callsFrom_nodup (c n : Nat) : (callsFrom c n).Nodup := by
  rw [callsFrom_map]
  refine List.Nodup.map ?_ (List.nodup_range n)
  intro i j hij
  have := encode_injective hij
  omega

theorem counterAfter_eq (n : Nat) : counterAfter n = n := by
  induction n with
  | zero => rfl
  | succ n ih => simp [counterAfter, generate_short_code, ih]

end UrlShortener

namespace UrlShortener

/-- C1: `_encode_base62` computes the base-62, most-significant-digit-first
representation over the alphabet 0-9, a-z, A-Z (0 encoded as "0"), agreeing
with the repeated-division description; concretely encode 0 = "0",
1 = "1", 61 = "Z", 62 = "10", 63 = "11". -/
theorem base62_encoding_spec :
    (∀ n : Nat, _encode_base62 n = spec_encode n)
    ∧ _encode_base62 0 = "0" ∧ _encode_base62 1 = "1" ∧ _encode_base62 61 = "Z"
    ∧ _encode_base62 62 = "10" ∧ _encode_base62 63 = "11" := by
  refine ⟨encode_eq_spec, ?_, ?_, ?_, ?_, ?_⟩ <;>
    simp [_encode_base62, encodeLoop, alphaChar, alphabetChars, _base62_alphabet]

/-- C2: for every prior registry state and all codes and URLs, a `put`
followed by a `get` of the same code returns the URL just stored. -/
theorem registry_put_get : ∀ (store : Store) (c u : String),
    get (put store c u) c = some u := by
  intro store c u
  simp [get, put]

/-- C3: any sequence of N calls to `generate_short_code`, from any starting
counter, returns pairwise distinct codes; `_encode_base62` is injective. -/
theorem next_codes_distinct :
    (∀ c n : Nat, (callsFrom c n).Nodup) ∧ Function.Injective _encode_base62 :=
  ⟨callsFrom_nodup, encode_injective⟩

/-- C4: the counter starts at zero, each `generate_short_code` call
increments it by exactly one and returns the encoding of the post-increment
value, after n calls the counter is exactly n (strictly increasing, no
gaps), and the first issued code is the encoding of counter value 1. -/
theorem counter_invariant :
    _counter = 0
    ∧ (∀ c : Nat, (generate_short_code c).1 = c + 1
        ∧ (generate_short_code c).2 = _encode_base62 (c + 1))
    ∧ (∀ n : Nat, counterAfter n = n)
    ∧ (generate_short_code _counter).2 = _encode_base62 1 :=
  ⟨rfl, fun _ => ⟨rfl, rfl⟩, counterAfter_eq, rfl⟩

/-- C5: for any code absent from the store, `get` returns `none` and the
redirect (resolve) path reports not-found rather than faulting; in
particular resolving "doesnotexist" on the empty registry is not-found. -/
theorem unknown_code_absent :
    (∀ (store : Store) (code : String), get store code = none →
        redirect_code store code = RedirectResult.notFound)
    ∧ redirect_code emptyStore "doesnotexist" = RedirectResult.notFound := by
  constructor
  · intro store code hget
    simp [redirect_code, hget, pyFalsy]
  · rfl

theorem unknown_code_absent_witness :
    get emptyStore "x" = none ∧ redirect_code emptyStore "x" = RedirectResult.notFound :=
  ⟨rfl, unknown_code_absent.1 emptyStore "x" rfl⟩

/-- C6: from the initial state (counter 0, empty registry), the first ever
shorten request for "https://example.com/page" yields code "1", and
resolving "1" then redirects to "https://example.com/page". -/
theorem first_request_scenario :
    (shorten initialState (some "https://example.com/page")).2
      = ShortenResult.created "1" "https://example.com/page"
    ∧ redirect_code (shorten initialState (some "https://example.com/page")).1.url_store "1"
      = RedirectResult.redirect "https://example.com/page" := by
  constructor
  · simp [shorten, pyFalsy, initialState, generate_short_code, _counter,
      _encode_base62, encodeLoop, alphaChar, alphabetChars, _base62_alphabet]
  · simp [shorten, pyFalsy, initialState, generate_short_code, _counter, redirect_code,
      get, put, emptyStore,
      _encode_base62, encodeLoop, alphaChar, alphabetChars, _base62_alphabet]

/-- C7: `_encode_base62` is injective, decoding an encoding returns the
original number, every encoding is a well-formed no-leading-zero base-62
string, and re-encoding the decoding of any well-formed string reproduces
it: the encoder is a bijection onto well-formed codes. -/
theorem base62_bijective :
    Function.Injective _encode_base62
    ∧ (∀ n : Nat, decode_base62 (_encode_base62 n) = n)
    ∧ (∀ n : Nat, WellFormedCode (_encode_base62 n))
    ∧ (∀ s : String, WellFormedCode s → _encode_base62 (decode_base62 s) = s) :=
  ⟨encode_injective, decode_encode, encode_wf, encode_decode⟩

theorem base62_bijective_witness :
    WellFormedCode "Z" ∧ _encode_base62 (decode_base62 "Z") = "Z" :=
  ⟨by decide, base62_bijective.2.2.2 "Z" (by decide)⟩

/-- C8: `put` performs no uniqueness check: storing a second URL under an
existing code silently replaces the entry (last write wins) and the
resulting store is as if only the second `put` had happened. -/
theorem put_overwrites :
    ∀ (store : Store) (c u1 u2 : String),
      get (put (put store c u1) c u2) c = some u2
      ∧ put (put store c u1) c u2 = put store c u2 := by
  intro store c u1 u2
  constructor
  · simp [get, put]
  · funext k
    by_cases hk : k = c <;> simp [put, hk]

/-- C9: the resolve path tests the looked-up value for falsiness, so a code
registered with the empty-string URL is reported not-found (404) even
though the entry is present in the store. -/
theorem empty_url_reported_not_found :
    ∀ (store : Store) (c : String),
      get (put store c "") c = some ""
      ∧ redirect_code (put store c "") c = RedirectResult.notFound := by
  intro store c
  refine ⟨by simp [get, put], ?_⟩
  simp [redirect_code, get, put, pyFalsy]

/-- C10: `_encode_base62` is total: the loop variable strictly decreases
under division by 62, and the function always returns a non-empty string. -/
theorem encode_total_nonempty :
    (∀ n : Nat, n ≠ 0 → n / 62 < n) ∧ (∀ n : Nat, 0 < (_encode_base62 n).length) := by
  constructor
  · intro n hn
    exact Nat.div_lt_self (Nat.pos_of_ne_zero hn) (by decide)
  · intro n
    by_cases h : n = 0
    · subst h; decide
    · have hd : Nat.digits 62 n ≠ [] := Nat.digits_ne_nil_iff_ne_zero.mpr h
      unfold _encode_base62
      rw [if_neg h, encodeLoop_eq]
      simp [String.length]
      exact List.length_pos.mpr hd

theorem encode_total_nonempty_witness :
    (5 : Nat) ≠ 0 ∧ 5 / 62 < 5 ∧ 0 < (_encode_base62 5).length :=
  ⟨by decide, encode_total_nonempty.1 5 (by decide), encode_total_nonempty.2 5⟩

end UrlShortener
